import Mathlib

/-!
Verification of `scripts/pathfinder2cofi.py` (pathfinder2 → CoFi converter).

The script manipulates Python `defaultdict(lambda: defaultdict(lambda: 0))`
tables keyed by hex-address strings.  We embed those tables as association
lists `Tbl` (outer key → row, a row being an association list inner key →
value) together with a zero-default lookup `tblGet` and an ordered,
overwrite-in-place store `tblSet`, matching Python dict semantics
(insertion order preserved, assignment overwrites in place, absent keys
read as 0).  Reads of a `defaultdict` are modelled as pure zero-default
lookups: the only observable effect of Python's read-time insertion is the
materialisation of explicit zero entries, which is invisible in the
zero-default-map abstraction used throughout the script.

Values are `Int` (Python integers are unbounded signed integers) and the
Python floor division `//` is `Int.fdiv`.
-/

set_option maxRecDepth 10000

set_option linter.unusedVariables false

abbrev Row := List (String × Int)

abbrev Tbl := List (String × Row)

/-- Zero-default lookup in a row, first match wins (Python dict keys are
unique, so first match is the only match). -/
def rowGet : Row → String → Int
  | [], _ => 0
  | (k, v) :: r, a => if a = k then v else rowGet r a

/-- Zero-default double lookup, `tbl[a][b]` on defaultdicts. -/
def tblGet : Tbl → String → String → Int
  | [], _, _ => 0
  | (k, r) :: t, a, b => if a = k then rowGet r b else tblGet t a b

/-- `row[k] = v` on a Python dict: overwrite in place if the key is
present (keys are unique, so rewriting the first occurrence suffices),
append otherwise. -/
def rowSet : Row → String → Int → Row
  | [], k, v => [(k, v)]
  | (k0, v0) :: r, k, v => if k0 = k then (k, v) :: r else (k0, v0) :: rowSet r k v

/-- `tbl[k1][k2] = v` on nested defaultdicts: update the row of `k1` in
place if present, otherwise append a fresh one-entry row (the row that
the read-side of the defaultdict would have materialised empty). -/
def tblSet : Tbl → String → String → Int → Tbl
  | [], k1, k2, v => [(k1, [(k2, v)])]
  | (k0, r0) :: t, k1, k2, v =>
    if k0 = k1 then (k1, rowSet r0 k2 v) :: t else (k0, r0) :: tblSet t k1 k2 v

/-- The characteristic equation of `rowSet`. -/
theorem rowGet_rowSet (r : Row) (k a : String) (v : Int) :
    rowGet (rowSet r k v) a = if a = k then v else rowGet r a := by
  induction r with
  | nil => simp [rowSet, rowGet]
  | cons p r ih =>
    cases p with | mk k0 v0 =>
    by_cases hk : k0 = k
    · subst hk
      by_cases ha : a = k0 <;> simp [rowSet, rowGet, ha]
    · by_cases ha : a = k0
      · subst ha
        simp [rowSet, rowGet, hk, Ne.symm hk]
      · simp [rowSet, rowGet, hk, ha, ih]

/-- The characteristic equation of `tblSet`: storing `v` at `(k1, k2)`
changes exactly that one zero-default entry. -/
theorem tblGet_tblSet (t : Tbl) (k1 k2 a b : String) (v : Int) :
    tblGet (tblSet t k1 k2 v) a b = if a = k1 ∧ b = k2 then v else tblGet t a b := by
  induction t with
  | nil =>
    by_cases hak : a = k1
    · subst hak
      by_cases hbk : b = k2 <;> simp [tblSet, tblGet, rowGet, hbk]
    · simp [tblSet, tblGet, hak]
  | cons p t ih =>
    cases p with | mk k0 r0 =>
    by_cases hk : k0 = k1
    · subst hk
      by_cases ha : a = k0
      · subst ha
        by_cases hbk : b = k2 <;> simp [tblSet, tblGet, rowGet_rowSet, hbk]
      · simp [tblSet, tblGet, ha]
    · by_cases ha : a = k0
      · subst ha
        simp [tblSet, tblGet, hk, Ne.symm hk]
      · simp [tblSet, tblGet, hk, ha, ih]

/-- Writing back the value that is already (zero-default) present leaves
the table extensionally unchanged. -/
theorem tblGet_tblSet_self (t : Tbl) (k1 k2 a b : String) :
    tblGet (tblSet t k1 k2 (tblGet t k1 k2)) a b = tblGet t a b := by
  rw [tblGet_tblSet]
  by_cases h : a = k1 ∧ b = k2
  · rw [if_pos h, h.1, h.2]
  · rw [if_neg h]

/-!
## Capacity Engine

`trust_transfer_limit(frm, to, trust_percentage)` from the script, lines
142–161; the script's `to` parameter is rendered `dst` here because `to`
is a reserved word in this Lean environment.  In the script the function
reads the module-level globals `tbl_uti` and `organizations`; here they
are explicit parameters.  (Note: the script's decoder actually populates
`organizations` with raw `u32` indices, while this function
membership-tests the *address string* of the receiver against it; we
model the function over an organization set of account keys, the type the
membership test reads as.)  Python `//` on the non-negative operands that
occur here is floor division, `Int.fdiv`.
-/

def trust_transfer_limit (tbl_uti : Tbl) (organizations : List String)
    (frm dst : String) (trust_percentage : Int) : Int :=
  if frm = dst ∨ dst ∈ organizations then tblGet tbl_uti frm frm
  else
    -- How much of our tokens do they already have?
    let receiver_balance := tblGet tbl_uti dst frm
    let scaled_receiver_balance := Int.fdiv (receiver_balance * (100 - trust_percentage)) 100
    -- How many of their own tokens do they have, scaled by the trust percentage.
    let amount := Int.fdiv (tblGet tbl_uti dst dst * trust_percentage) 100
    -- We already exceed the maximum!!
    if amount < receiver_balance then 0
    else min (amount - scaled_receiver_balance) (tblGet tbl_uti frm frm)

/-- Reference definition of the transfer limit, written from the spec's
words (§4.2 steps 1–6): own-balance for self/organization receivers,
otherwise 0 when `max_trusted < receiver_balance`, and
`min(max_trusted - scaled_receiver_balance, balance[from][from])`
otherwise, with both scalings computed by floor division by 100. -/
def transfer_limit_spec (balance : Tbl) (organizations : List String)
    (frm dst : String) (trust_percent : Int) : Int :=
  if frm = dst ∨ dst ∈ organizations then tblGet balance frm frm
  else
    let receiver_balance := tblGet balance dst frm
    let scaled_receiver_balance := Int.fdiv (receiver_balance * (100 - trust_percent)) 100
    let max_trusted := Int.fdiv (tblGet balance dst dst * trust_percent) 100
    if max_trusted < receiver_balance then 0
    else min (max_trusted - scaled_receiver_balance) (tblGet balance frm frm)

/-- Helper: `x // 100` is monotone (floor division by the positive
constant 100). -/
theorem fdiv100_mono {x y : Int} (h : x ≤ y) : Int.fdiv x 100 ≤ Int.fdiv y 100 := by
  rw [Int.fdiv_eq_ediv _ (by norm_num), Int.fdiv_eq_ediv _ (by norm_num)]
  exact Int.ediv_le_ediv (by norm_num) h

/-- Helper: `0 ≤ x` gives `0 ≤ x // 100`. -/
theorem fdiv100_nonneg {x : Int} (h : 0 ≤ x) : 0 ≤ Int.fdiv x 100 := by
  rw [Int.fdiv_eq_ediv _ (by norm_num)]
  exact Int.ediv_nonneg h (by norm_num)

/-- Helper: scaling a non-negative `r` by `k ≤ 100` percent stays below `r`:
`(r * k) // 100 ≤ r`. -/
theorem fdiv100_scale_le {r k : Int} (hr : 0 ≤ r) (hk : k ≤ 100) :
    Int.fdiv (r * k) 100 ≤ r := by
  have h1 : Int.fdiv (r * k) 100 ≤ Int.fdiv (r * 100) 100 :=
    fdiv100_mono (mul_le_mul_of_nonneg_left hk hr)
  have h2 : Int.fdiv (r * 100) 100 = r := by
    rw [Int.fdiv_eq_ediv _ (by norm_num)]
    exact Int.mul_ediv_cancel r (by norm_num)
  omega

/-- The small demonstration balance table used by the witnesses below has
only non-negative entries. -/
theorem demoTbl_nonneg :
    ∀ a b, 0 ≤ tblGet [("a", [("a", 7)]), ("b", [("b", 50), ("a", 3)])] a b := by
  intro a b
  simp only [tblGet, rowGet]
  split_ifs <;> norm_num

/-- C1: with the balance table and organization set fixed,
`trust_transfer_limit` agrees with the reference definition assembled
from the spec's words, for every pair of accounts and every trust
percent in [0, 100]. -/
theorem trust_transfer_limit_eq_spec (tbl_uti : Tbl) (organizations : List String)
    (frm dst : String) (p : Int) (hp0 : 0 ≤ p) (hp1 : p ≤ 100) :
    trust_transfer_limit tbl_uti organizations frm dst p =
      transfer_limit_spec tbl_uti organizations frm dst p := rfl

/-- C1 witness: the equality instantiated at a concrete table. -/
theorem trust_transfer_limit_eq_spec_witness :
    (0 : Int) ≤ 40 ∧ (40 : Int) ≤ 100 ∧
      trust_transfer_limit [("a", [("a", 7)]), ("b", [("b", 50), ("a", 3)])] []
          "a" "b" 40 =
        transfer_limit_spec [("a", [("a", 7)]), ("b", [("b", 50), ("a", 3)])] []
          "a" "b" 40 :=
  ⟨by norm_num, by norm_num,
    trust_transfer_limit_eq_spec [("a", [("a", 7)]), ("b", [("b", 50), ("a", 3)])] []
      "a" "b" 40 (by norm_num) (by norm_num)⟩

/-- C5: over a balance table with non-negative entries and a trust
percent in [0, 100], `trust_transfer_limit` returns a non-negative
integer; moreover, once the guard `max_trusted < receiver_balance` has
been passed, the subtraction `max_trusted - scaled_receiver_balance`
of the final branch is itself non-negative. -/
theorem trust_transfer_limit_nonneg (tbl_uti : Tbl) (organizations : List String)
    (frm dst : String) (p : Int)
    (hnn : ∀ a b, 0 ≤ tblGet tbl_uti a b) (hp0 : 0 ≤ p) (hp1 : p ≤ 100) :
    0 ≤ trust_transfer_limit tbl_uti organizations frm dst p ∧
      (tblGet tbl_uti dst frm ≤ Int.fdiv (tblGet tbl_uti dst dst * p) 100 →
        0 ≤ Int.fdiv (tblGet tbl_uti dst dst * p) 100 -
              Int.fdiv (tblGet tbl_uti dst frm * (100 - p)) 100) := by
  have hsub : tblGet tbl_uti dst frm ≤ Int.fdiv (tblGet tbl_uti dst dst * p) 100 →
      0 ≤ Int.fdiv (tblGet tbl_uti dst dst * p) 100 -
            Int.fdiv (tblGet tbl_uti dst frm * (100 - p)) 100 := by
    intro hguard
    have hscaled : Int.fdiv (tblGet tbl_uti dst frm * (100 - p)) 100 ≤ tblGet tbl_uti dst frm :=
      fdiv100_scale_le (hnn dst frm) (by omega)
    omega
  refine ⟨?_, hsub⟩
  unfold trust_transfer_limit
  split
  · exact hnn frm frm
  · simp only
    split
    · exact le_refl 0
    · rename_i hguard
      exact le_min (hsub (by omega)) (hnn frm frm)

/-- C5 witness: non-negativity instantiated at a concrete table. -/
theorem trust_transfer_limit_nonneg_witness :
    0 ≤ trust_transfer_limit [("a", [("a", 7)]), ("b", [("b", 50), ("a", 3)])] [] "a" "b" 40 ∧
      (tblGet [("a", [("a", 7)]), ("b", [("b", 50), ("a", 3)])] "b" "a" ≤
          Int.fdiv (tblGet [("a", [("a", 7)]), ("b", [("b", 50), ("a", 3)])] "b" "b" * 40) 100 →
        0 ≤ Int.fdiv (tblGet [("a", [("a", 7)]), ("b", [("b", 50), ("a", 3)])] "b" "b" * 40) 100 -
              Int.fdiv (tblGet [("a", [("a", 7)]), ("b", [("b", 50), ("a", 3)])] "b" "a" * (100 - 40)) 100) :=
  trust_transfer_limit_nonneg [("a", [("a", 7)]), ("b", [("b", 50), ("a", 3)])] []
    "a" "b" 40 demoTbl_nonneg (by norm_num) (by norm_num)

/-- C10: over a balance table with non-negative entries and a trust
percent in [0, 100], the computed capacity never exceeds the sender's
own-token balance `balance[from][from]`, in every branch. -/
theorem trust_transfer_limit_le_own_balance (tbl_uti : Tbl) (organizations : List String)
    (frm dst : String) (p : Int)
    (hnn : ∀ a b, 0 ≤ tblGet tbl_uti a b) (hp0 : 0 ≤ p) (hp1 : p ≤ 100) :
    trust_transfer_limit tbl_uti organizations frm dst p ≤ tblGet tbl_uti frm frm := by
  unfold trust_transfer_limit
  split
  · exact le_refl _
  · simp only
    split
    · exact hnn frm frm
    · exact min_le_right _ _

/-- C10 witness: the bound instantiated at a concrete table. -/
theorem trust_transfer_limit_le_own_balance_witness :
    trust_transfer_limit [("a", [("a", 7)]), ("b", [("b", 50), ("a", 3)])] [] "a" "b" 40 ≤
      tblGet [("a", [("a", 7)]), ("b", [("b", 50), ("a", 3)])] "a" "a" :=
  trust_transfer_limit_le_own_balance [("a", [("a", 7)]), ("b", [("b", 50), ("a", 3)])] []
    "a" "b" 40 demoTbl_nonneg (by norm_num) (by norm_num)

/-- C4: for `frm ≠ dst` with `dst` not an organization, over a balance
table with non-negative entries, `trust_transfer_limit` is monotonically
non-decreasing in the trust percent on [0, 100], including across the
boundary where the guard `max_trusted < receiver_balance` forces 0. -/
theorem trust_transfer_limit_mono (tbl_uti : Tbl) (organizations : List String)
    (frm dst : String) (p1 p2 : Int)
    (hne : frm ≠ dst) (horg : dst ∉ organizations)
    (hnn : ∀ a b, 0 ≤ tblGet tbl_uti a b)
    (hp0 : 0 ≤ p1) (hp12 : p1 ≤ p2) (hp2 : p2 ≤ 100) :
    trust_transfer_limit tbl_uti organizations frm dst p1 ≤
      trust_transfer_limit tbl_uti organizations frm dst p2 := by
  have hcond : ¬ (frm = dst ∨ dst ∈ organizations) := by
    intro h; rcases h with h | h
    · exact hne h
    · exact horg h
  unfold trust_transfer_limit
  rw [if_neg hcond, if_neg hcond]
  simp only
  set R := tblGet tbl_uti dst frm with hR
  set B := tblGet tbl_uti dst dst with hB
  set S := tblGet tbl_uti frm frm with hS
  have hRn : 0 ≤ R := hnn dst frm
  have hBn : 0 ≤ B := hnn dst dst
  have hSn : 0 ≤ S := hnn frm frm
  have hM : Int.fdiv (B * p1) 100 ≤ Int.fdiv (B * p2) 100 :=
    fdiv100_mono (mul_le_mul_of_nonneg_left hp12 hBn)
  have hsc : Int.fdiv (R * (100 - p2)) 100 ≤ Int.fdiv (R * (100 - p1)) 100 :=
    fdiv100_mono (mul_le_mul_of_nonneg_left (by omega) hRn)
  have hsc2 : Int.fdiv (R * (100 - p2)) 100 ≤ R :=
    fdiv100_scale_le hRn (by omega)
  by_cases hg1 : Int.fdiv (B * p1) 100 < R
  · rw [if_pos hg1]
    by_cases hg2 : Int.fdiv (B * p2) 100 < R
    · rw [if_pos hg2]
    · rw [if_neg hg2]
      exact le_min (by omega) hSn
  · rw [if_neg hg1, if_neg (by omega)]
    exact min_le_min (by omega) (le_refl S)

/-- C4 witness: monotonicity instantiated at a concrete table and a
concrete pair of percentages. -/
theorem trust_transfer_limit_mono_witness :
    trust_transfer_limit [("a", [("a", 7)]), ("b", [("b", 50), ("a", 3)])] [] "a" "b" 10 ≤
      trust_transfer_limit [("a", [("a", 7)]), ("b", [("b", 50), ("a", 3)])] [] "a" "b" 90 :=
  trust_transfer_limit_mono [("a", [("a", 7)]), ("b", [("b", 50), ("a", 3)])] []
    "a" "b" 10 90 (by decide) (by simp) demoTbl_nonneg
    (by norm_num) (by norm_num) (by norm_num)

/-!
## Format Transformer

`write_cofi_edges_csv(tbl, pathname)` from the script, lines 49–68,
stripped of file I/O: we model the sequence of `(debtor, creditor,
amount)` rows the csv writer emits.  The account index is built from the
set `all_nodes` (every outer key and every inner key of `tbl`); Python's
set enumeration order is arbitrary, and we realise it as first-occurrence
order of a deduplicated key list — every claim below is insensitive to
the enumeration order.

The script rescales with `amt = int(amt//1e8)`.  `1e8` is a *float*
literal, so the script actually floor-divides in binary64; we model the
rescale as the exact integer floor `Int.fdiv amt 10^8`, which coincides
with the script for `|amt| < 2^53`.  The divergence beyond that range is
exactly the defect recorded under claim C3.
-/

def allNodes (tbl : Tbl) : List String :=
  (tbl.flatMap fun fc => fc.1 :: fc.2.map Prod.fst).dedup

/-- Dense integer index of an address, `index[addr]` in the script. -/
def cofiIndex (tbl : Tbl) (a : String) : Nat :=
  (allNodes tbl).indexOf a

/-- Number of distinct accounts appearing in the table. -/
def nodeCount (tbl : Tbl) : Nat :=
  (allNodes tbl).length

/-- The rows emitted by `write_cofi_edges_csv`: self-loops skipped,
amounts rescaled by floor division by 10^8, non-positive results
dropped. -/
def write_cofi_rows (tbl : Tbl) : List (Nat × Nat × Int) :=
  tbl.flatMap fun fc =>
    fc.2.filterMap fun ta =>
      if fc.1 = ta.1 then none
      else
        let amt := Int.fdiv ta.2 100000000
        if amt ≤ 0 then none
        else some (cofiIndex tbl fc.1, cofiIndex tbl ta.1, amt)

theorem mem_allNodes_of_outer {tbl : Tbl} {fc : String × Row} (h : fc ∈ tbl) :
    fc.1 ∈ allNodes tbl := by
  rw [allNodes, List.mem_dedup, List.mem_flatMap]
  exact ⟨fc, h, List.mem_cons_self _ _⟩

theorem mem_allNodes_of_inner {tbl : Tbl} {fc : String × Row} {ta : String × Int}
    (h : fc ∈ tbl) (h2 : ta ∈ fc.2) : ta.1 ∈ allNodes tbl := by
  rw [allNodes, List.mem_dedup, List.mem_flatMap]
  exact ⟨fc, h, List.mem_cons_of_mem _ (List.mem_map_of_mem Prod.fst h2)⟩

/-- C6: every row emitted by the format transformer has a strictly
positive amount and distinct debtor and creditor indices: self-loops are
skipped and rows whose rescaled amount is not positive are dropped. -/
theorem write_cofi_rows_invariant (tbl : Tbl) (r : Nat × Nat × Int)
    (hr : r ∈ write_cofi_rows tbl) : 0 < r.2.2 ∧ r.1 ≠ r.2.1 := by
  rw [write_cofi_rows, List.mem_flatMap] at hr
  obtain ⟨fc, hfc, hr⟩ := hr
  rw [List.mem_filterMap] at hr
  obtain ⟨ta, hta, hsome⟩ := hr
  by_cases hself : fc.1 = ta.1
  · rw [if_pos hself] at hsome; exact absurd hsome (by simp)
  · rw [if_neg hself] at hsome
    simp only at hsome
    by_cases hpos : Int.fdiv ta.2 100000000 ≤ 0
    · rw [if_pos hpos] at hsome; exact absurd hsome (by simp)
    · rw [if_neg hpos] at hsome
      have hr : r = (cofiIndex tbl fc.1, cofiIndex tbl ta.1, Int.fdiv ta.2 100000000) := by
        exact (Option.some_inj.mp hsome).symm
      subst hr
      refine ⟨by simpa using lt_of_not_le hpos, ?_⟩
      intro hidx
      apply hself
      exact (List.indexOf_inj (mem_allNodes_of_outer hfc)
        (mem_allNodes_of_inner hfc hta)).mp hidx

/-- C6 witness: the invariant instantiated at a concrete table and row. -/
theorem write_cofi_rows_invariant_witness :
    0 < ((0, 1, (2 : Int)) : Nat × Nat × Int).2.2 ∧
      ((0, 1, (2 : Int)) : Nat × Nat × Int).1 ≠ ((0, 1, (2 : Int)) : Nat × Nat × Int).2.1 :=
  write_cofi_rows_invariant [("a", [("b", 250000000)])] (0, 1, 2) (by decide)

/-- The list of integer indices appearing (as debtor or creditor) in the
emitted rows — the claim-side notion "indices used by the rows". -/
def rowIndices (tbl : Tbl) : List Nat :=
  (write_cofi_rows tbl).flatMap fun r => [r.1, r.2.1]

/-- C7 counterexample: for the one-edge table `{a: {b: 5}}` the node
universe has two accounts, so `range(node_count) = [0, 1]`, but the
single row is dropped by the rescale (`5 // 10^8 = 0`), so no index at
all appears in the emitted rows: the set of indices used by the rows is
empty and differs from `range(node_count)`. -/
theorem write_cofi_rows_index_gap :
    0 ∈ List.range (nodeCount [("a", [("b", 5)])]) ∧
      0 ∉ rowIndices [("a", [("b", 5)])] := by decide

/-- C7 (amended): the index map assigns to the node universe exactly the
indices `range(0, node_count)` — the assignment enumerates the universe
with no gaps — and every index appearing in an emitted row lies in
`range(0, node_count)`.  (The indices appearing in the rows can be a
strict subset: rows are dropped by the self-loop and rescale guards.) -/
theorem write_cofi_index_range (tbl : Tbl) :
    (allNodes tbl).map (cofiIndex tbl) = List.range (nodeCount tbl) ∧
      ∀ r ∈ write_cofi_rows tbl,
        r.1 ∈ List.range (nodeCount tbl) ∧ r.2.1 ∈ List.range (nodeCount tbl) := by
  constructor
  · apply List.ext_getElem
    · simp [nodeCount]
    · intro i h1 h2
      simp only [List.getElem_map, List.getElem_range]
      exact List.indexOf_getElem (List.nodup_dedup _) i (by simpa [nodeCount] using h2)
  · intro r hr
    rw [write_cofi_rows, List.mem_flatMap] at hr
    obtain ⟨fc, hfc, hr⟩ := hr
    rw [List.mem_filterMap] at hr
    obtain ⟨ta, hta, hsome⟩ := hr
    by_cases hself : fc.1 = ta.1
    · rw [if_pos hself] at hsome; exact absurd hsome (by simp)
    · rw [if_neg hself] at hsome
      simp only at hsome
      by_cases hpos : Int.fdiv ta.2 100000000 ≤ 0
      · rw [if_pos hpos] at hsome; exact absurd hsome (by simp)
      · rw [if_neg hpos] at hsome
        have hreq : r = (cofiIndex tbl fc.1, cofiIndex tbl ta.1, Int.fdiv ta.2 100000000) :=
          (Option.some_inj.mp hsome).symm
        subst hreq
        constructor
        · exact List.mem_range.mpr
            (List.indexOf_lt_length.mpr (mem_allNodes_of_outer hfc))
        · exact List.mem_range.mpr
            (List.indexOf_lt_length.mpr (mem_allNodes_of_inner hfc hta))

/-- C7 witness: the amended statement instantiated at a concrete table
and row. -/
theorem write_cofi_index_range_witness :
    (0 : Nat) ∈ List.range (nodeCount [("a", [("b", 250000000)])]) ∧
      (1 : Nat) ∈ List.range (nodeCount [("a", [("b", 250000000)])]) :=
  (write_cofi_index_range [("a", [("b", 250000000)])]).2 (0, 1, 2) (by decide)

/-- C3: the *exact-integer* rescale.  The modelled transformer computes
`floor(amount / 10^8)` exactly: input 250000000 yields amount 2, input
99999999 rescales to 0 and the row is dropped, and the large input
100000000099999999 (= 10^17 + 10^8 - 1) yields 1000000000 — the exact
floor.  The script instead computes `int(amt // 1e8)` with the float
literal `1e8`: at the large input, binary64 rounds the amount to
100000000100000000 (nearest multiple of 16) and the script emits
1000000001 ≠ 1000000000, so the claim that the code computes the exact
floor for amounts beyond 2^53 fails on the code (a slip — the spec
mandates arbitrary-precision integer arithmetic). -/
theorem rescale_exact_examples :
    write_cofi_rows [("a", [("b", 250000000)])] = [(0, 1, 2)] ∧
      write_cofi_rows [("a", [("b", 99999999)])] = [] ∧
      write_cofi_rows [("a", [("b", 100000000099999999)])] = [(0, 1, 1000000000)] ∧
      (1000000000 : Int) ≠ 1000000001 := by decide

/-!
## Snapshot Decoder

`read_pathfinder2_safes_bin(pathname)` from the script, lines 92–131,
over an explicit byte sequence (a `List Nat` of values < 256) instead of
a file handle.  `struct.unpack` on a short read raises `struct.error`
(modelled `DecodeError.truncated`); `addr[i]` on an out-of-range index
raises `IndexError` (modelled `DecodeError.badIndex`).  Counts,
addresses and indices are big-endian (`>I`, `>20s`); balance magnitudes
are a one-byte length followed by that many bytes decoded *little*-endian
(`int.from_bytes(..., byteorder='little')`).  Addresses become the
Python `hex(...)` string of their big-endian value, which is how they key
every table.
-/

inductive DecodeError
  | truncated
  | badIndex
deriving DecidableEq

/-- `buf.read(n)` followed by a width-`n` `struct.unpack`: yields the
next `n` bytes and the remainder, or fails when fewer than `n` bytes
remain. -/
def readBytes (n : Nat) (s : List Nat) : Except DecodeError (List Nat × List Nat) :=
  if n ≤ s.length then .ok (s.take n, s.drop n) else .error .truncated

/-- Big-endian value of a byte list (`int.from_bytes(_, 'big')`, and the
multi-byte `struct.unpack` formats). -/
def beNat (bs : List Nat) : Nat := bs.foldl (fun acc b => acc * 256 + b) 0

/-- Little-endian value of a byte list (`int.from_bytes(_, 'little')`). -/
def leNat (bs : List Nat) : Nat := bs.foldr (fun b acc => b + 256 * acc) 0

/-- Python's `hex(n)` for a non-negative integer: `0x` followed by the
lowercase base-16 digits, no padding. -/
def pyHex (n : Nat) : String := "0x" ++ (Nat.toDigits 16 n).asString

/-- Address-table loop: reads `n` 20-byte addresses and renders each as
its `hex(...)` string. -/
def readAddresses : Nat → List Nat → Except DecodeError (List String × List Nat)
  | 0, s => .ok ([], s)
  | n + 1, s => do
    let (bs, s1) ← readBytes 20 s
    let (rest, s2) ← readAddresses n s1
    .ok (pyHex (beNat bs) :: rest, s2)

/-- Organization loop: reads `n` u32 address *indices* (the script adds
the raw index to the set, it does not resolve it to an address). -/
def readOrgs : Nat → List Nat → Except DecodeError (List Nat × List Nat)
  | 0, s => .ok ([], s)
  | n + 1, s => do
    let (bs, s1) ← readBytes 4 s
    let (rest, s2) ← readOrgs n s1
    .ok (beNat bs :: rest, s2)

/-- Trust-edge loop: each record is `u32 from, u32 to, u8 percent`,
stored as `tbl_trust[addr[from]][addr[to]] = percent`. -/
def readTrustEdges (addr : List String) : Nat → Tbl → List Nat →
    Except DecodeError (Tbl × List Nat)
  | 0, tbl, s => .ok (tbl, s)
  | n + 1, tbl, s => do
    let (bf, s1) ← readBytes 4 s
    let (bt, s2) ← readBytes 4 s1
    let (bp, s3) ← readBytes 1 s2
    match addr[beNat bf]?, addr[beNat bt]? with
    | some afrm, some adst =>
      readTrustEdges addr n (tblSet tbl afrm adst (Int.ofNat (beNat bp))) s3
    | _, _ => .error .badIndex

/-- Balance loop: each record is `u32 to, u32 from` — read in that
swapped order — then a one-byte length and that many magnitude bytes,
decoded little-endian and stored as
`tbl_utilized[addr[from]][addr[to]] = value` (holder first, token owner
second). -/
def readBalances (addr : List String) : Nat → Tbl → List Nat →
    Except DecodeError (Tbl × List Nat)
  | 0, tbl, s => .ok (tbl, s)
  | n + 1, tbl, s => do
    let (bt, s1) ← readBytes 4 s
    let (bf, s2) ← readBytes 4 s1
    let (bn, s3) ← readBytes 1 s2
    let (payload, s4) ← readBytes (beNat bn) s3
    match addr[beNat bf]?, addr[beNat bt]? with
    | some afrm, some adst =>
      readBalances addr n (tblSet tbl afrm adst (Int.ofNat (leNat payload))) s4
    | _, _ => .error .badIndex

structure Snapshot where
  tbl_trust : Tbl
  tbl_utilized : Tbl
  organizations : List Nat
deriving DecidableEq

/-- The whole decoder: address count and table, organization count and
set, trust-edge count and table, balance count and table.  Bytes left
over after the declared records have been read are ignored, as the
script closes the file without checking for exhaustion. -/
def read_pathfinder2_safes_bin (s : List Nat) : Except DecodeError Snapshot := do
  let (c1, s1) ← readBytes 4 s
  let (addr, s2) ← readAddresses (beNat c1) s1
  let (c2, s3) ← readBytes 4 s2
  let (orgs, s4) ← readOrgs (beNat c2) s3
  let (c3, s5) ← readBytes 4 s4
  let (tbl_trust, s6) ← readTrustEdges addr (beNat c3) [] s5
  let (c4, s7) ← readBytes 4 s6
  let (tbl_utilized, _s8) ← readBalances addr (beNat c4) [] s7
  .ok ⟨tbl_trust, tbl_utilized, orgs⟩

deriving instance DecidableEq for Except

/-- Trust-table entry of a decode result, for stating concrete examples. -/
def decodedTrust (s : List Nat) (a b : String) : Except DecodeError Int :=
  (read_pathfinder2_safes_bin s).map fun r => tblGet r.tbl_trust a b

/-- Utilized-balance entry of a decode result. -/
def decodedUtilized (s : List Nat) (a b : String) : Except DecodeError Int :=
  (read_pathfinder2_safes_bin s).map fun r => tblGet r.tbl_utilized a b

/-- The claim's example snapshot: 2 addresses (values 1 and 2, rendered
"0x1" and "0x2"), no organizations, one trust edge (0 → 1, percent 50),
one balance record (to = 1, from = 0, one magnitude byte 0x0A). -/
def exampleSnapshotBytes : List Nat :=
  [0, 0, 0, 2] ++
    (List.replicate 19 0 ++ [1]) ++ (List.replicate 19 0 ++ [2]) ++
    [0, 0, 0, 0] ++
    [0, 0, 0, 1] ++ ([0, 0, 0, 0] ++ [0, 0, 0, 1] ++ [50]) ++
    [0, 0, 0, 1] ++ ([0, 0, 0, 1] ++ [0, 0, 0, 0] ++ [1] ++ [10])

/-- Same snapshot with a two-byte balance magnitude `0x01 0x02`, whose
little-endian value is 513 (big-endian would give 258): witnesses the
endianness asymmetry between magnitudes and everything else. -/
def exampleSnapshotBytes2 : List Nat :=
  [0, 0, 0, 2] ++
    (List.replicate 19 0 ++ [1]) ++ (List.replicate 19 0 ++ [2]) ++
    [0, 0, 0, 0] ++
    [0, 0, 0, 1] ++ ([0, 0, 0, 0] ++ [0, 0, 0, 1] ++ [50]) ++
    [0, 0, 0, 1] ++ ([0, 0, 0, 1] ++ [0, 0, 0, 0] ++ [2] ++ [1, 2])

/-- C2: decoding the claim's example snapshot stores the balance at
`balance[holder][token_owner]` = `balance[addr0][addr1] = 10` (the u32
indices of a balance record are read in the swapped order (to, from))
and the trust edge at `trust[addr0][addr1] = 50`; and a two-byte
magnitude `01 02` decodes little-endian to 513, while counts and
addresses are big-endian (address bytes `00…01` decode to value 1,
key "0x1"). -/
theorem decode_example_snapshot :
    decodedUtilized exampleSnapshotBytes "0x1" "0x2" = .ok 10 ∧
      decodedTrust exampleSnapshotBytes "0x1" "0x2" = .ok 50 ∧
      decodedUtilized exampleSnapshotBytes2 "0x1" "0x2" = .ok 513 := by decide

/-!
## Decoder contract (claim C9)

A small sequential-parser calculus: `ParsesTo p c out` says the reader
`p` consumes exactly the bytes `c` producing `out` (whatever follows is
left untouched), and fails with `truncated` on every strict prefix of
`c`.  The decoder's contract is then proved by composing one such lemma
per section of the binary layout against a reference encoder written
from the spec's layout (§4.1).
-/

def ParsesTo {α : Type} (p : List Nat → Except DecodeError (α × List Nat))
    (c : List Nat) (out : α) : Prop :=
  (∀ rest, p (c ++ rest) = .ok (out, rest)) ∧
    (∀ k, k < c.length → p (c.take k) = .error .truncated)

def DecodesTo {β : Type} (d : List Nat → Except DecodeError β)
    (c : List Nat) (out : β) : Prop :=
  (∀ rest, d (c ++ rest) = .ok out) ∧
    (∀ k, k < c.length → d (c.take k) = .error .truncated)

theorem parsesTo_congr {α : Type} {p q : List Nat → Except DecodeError (α × List Nat)}
    {c : List Nat} {out : α} (h : ∀ s, p s = q s) (hp : ParsesTo p c out) :
    ParsesTo q c out :=
  ⟨fun rest => (h (c ++ rest)).symm.trans (hp.1 rest),
   fun k hk => (h (c.take k)).symm.trans (hp.2 k hk)⟩

theorem parsesTo_pure {α : Type} (out : α) :
    ParsesTo (fun s => .ok (out, s)) [] out :=
  ⟨fun _ => rfl, fun k hk => absurd hk (by simp)⟩

theorem parsesTo_seq {α β : Type} {p : List Nat → Except DecodeError (α × List Nat)}
    (k : α → List Nat → Except DecodeError (β × List Nat))
    {c d : List Nat} {a : α} {b : β}
    (hp : ParsesTo p c a) (hk : ParsesTo (k a) d b) :
    ParsesTo (fun s => (p s).bind fun r => k r.1 r.2) (c ++ d) b := by
  constructor
  · intro rest
    have h1 : p (c ++ (d ++ rest)) = .ok (a, d ++ rest) := hp.1 (d ++ rest)
    simp only [List.append_assoc, h1, Except.bind]
    exact hk.1 rest
  · intro j hj
    rw [List.take_append_eq_append_take]
    by_cases hjc : j < c.length
    · rw [Nat.sub_eq_zero_of_le (le_of_lt hjc)]
      simp only [List.take_zero, List.append_nil]
      rw [hp.2 j hjc]
      rfl
    · push_neg at hjc
      rw [List.take_of_length_le hjc]
      have h1 : p (c ++ d.take (j - c.length)) = .ok (a, d.take (j - c.length)) :=
        hp.1 _
      simp only [h1, Except.bind]
      apply hk.2
      have := List.length_append c d
      omega

theorem decodesTo_seq {α β : Type} {p : List Nat → Except DecodeError (α × List Nat)}
    (k : α → List Nat → Except DecodeError β)
    {c d : List Nat} {a : α} {b : β}
    (hp : ParsesTo p c a) (hk : DecodesTo (k a) d b) :
    DecodesTo (fun s => (p s).bind fun r => k r.1 r.2) (c ++ d) b := by
  constructor
  · intro rest
    have h1 : p (c ++ (d ++ rest)) = .ok (a, d ++ rest) := hp.1 (d ++ rest)
    simp only [List.append_assoc, h1, Except.bind]
    exact hk.1 rest
  · intro j hj
    rw [List.take_append_eq_append_take]
    by_cases hjc : j < c.length
    · rw [Nat.sub_eq_zero_of_le (le_of_lt hjc)]
      simp only [List.take_zero, List.append_nil]
      rw [hp.2 j hjc]
      rfl
    · push_neg at hjc
      rw [List.take_of_length_le hjc]
      have h1 : p (c ++ d.take (j - c.length)) = .ok (a, d.take (j - c.length)) :=
        hp.1 _
      simp only [h1, Except.bind]
      apply hk.2
      have := List.length_append c d
      omega

theorem decodesTo_pure {β : Type} (out : β) :
    DecodesTo (fun _ => .ok out) [] out :=
  ⟨fun _ => rfl, fun k hk => absurd hk (by simp)⟩

theorem readBytes_parsesTo (c : List Nat) :
    ParsesTo (readBytes c.length) c c := by
  constructor
  · intro rest
    rw [readBytes, if_pos (by simp), List.take_left, List.drop_left]
  · intro k hk
    rw [readBytes, if_neg]
    rw [List.length_take]
    omega

/-- Reference encoder for one u32, big-endian (spec §4.1). -/
def encodeU32 (n : Nat) : List Nat :=
  [n / 16777216 % 256, n / 65536 % 256, n / 256 % 256, n % 256]

theorem length_encodeU32 (n : Nat) : (encodeU32 n).length = 4 := rfl

theorem beNat_encodeU32 {n : Nat} (h : n < 4294967296) :
    beNat (encodeU32 n) = n := by
  simp only [beNat, encodeU32, List.foldl]
  omega

theorem beNat_singleton (b : Nat) : beNat [b] = b := by
  simp [beNat]

/-- A reference snapshot structure, written from the spec's binary
layout (§4.1): the address list (20-byte strings), the organization
index list, the trust records `(from, to, percent)` and the balance
records `(to, from, magnitude bytes)` in stream order. -/
structure RawSnapshot where
  addrs : List (List Nat)
  orgs : List Nat
  trusts : List (Nat × Nat × Nat)
  bals : List (Nat × Nat × List Nat)

/-- Reference encoder, from the spec's layout: each section is a
big-endian u32 count followed by its records; balance magnitudes are a
one-byte length followed by the raw bytes. -/
def encodeSnapshot (r : RawSnapshot) : List Nat :=
  encodeU32 r.addrs.length ++ r.addrs.flatten ++
    (encodeU32 r.orgs.length ++ r.orgs.flatMap encodeU32) ++
    (encodeU32 r.trusts.length ++
      r.trusts.flatMap (fun e => encodeU32 e.1 ++ encodeU32 e.2.1 ++ [e.2.2])) ++
    (encodeU32 r.bals.length ++
      r.bals.flatMap (fun b => encodeU32 b.1 ++ encodeU32 b.2.1 ++ [b.2.2.length] ++ b.2.2))

/-- The decoded (hex-string) address table of a reference snapshot. -/
def snapAddrs (r : RawSnapshot) : List String :=
  r.addrs.map fun a => pyHex (beNat a)

/-- Address string at index `i` (only used at in-range indices). -/
def snapAddr (r : RawSnapshot) (i : Nat) : String :=
  (snapAddrs r).getD i ""

/-- The trust table the decoder should build: every record stored at
`[addr[from]][addr[to]]`, later records overwriting earlier ones. -/
def snapTrustTbl (r : RawSnapshot) : Tbl :=
  r.trusts.foldl
    (fun t e => tblSet t (snapAddr r e.1) (snapAddr r e.2.1) (Int.ofNat e.2.2)) []

/-- The utilized-balance table the decoder should build: a record
`(to, from, bytes)` is stored at `[addr[from]][addr[to]]` with the
little-endian value of its magnitude bytes. -/
def snapUtiTbl (r : RawSnapshot) : Tbl :=
  r.bals.foldl
    (fun t b => tblSet t (snapAddr r b.2.1) (snapAddr r b.1) (Int.ofNat (leNat b.2.2))) []

/-- Well-formedness of a reference snapshot: counts fit in u32, every
address is 20 bytes, organization indices fit in u32, and the indices of
trust and balance records stay inside the address table (the magnitude
length must fit its one-byte field). -/
def snapWF (r : RawSnapshot) : Prop :=
  r.addrs.length < 4294967296 ∧ r.orgs.length < 4294967296 ∧
    r.trusts.length < 4294967296 ∧ r.bals.length < 4294967296 ∧
    (∀ a ∈ r.addrs, a.length = 20) ∧ (∀ o ∈ r.orgs, o < 4294967296) ∧
    (∀ e ∈ r.trusts, e.1 < r.addrs.length ∧ e.2.1 < r.addrs.length) ∧
    (∀ b ∈ r.bals, b.1 < r.addrs.length ∧ b.2.1 < r.addrs.length ∧ b.2.2.length < 256)

theorem getElem?_eq_some_getD {α : Type} (l : List α) (i : Nat) (d : α)
    (h : i < l.length) : l[i]? = some (l.getD i d) := by
  simp [List.getElem?_eq_getElem h]

theorem readAddresses_parsesTo (addrs : List (List Nat))
    (h : ∀ a ∈ addrs, a.length = 20) :
    ParsesTo (readAddresses addrs.length) addrs.flatten
      (addrs.map fun a => pyHex (beNat a)) := by
  induction addrs with
  | nil => exact parsesTo_pure []
  | cons a addrs ih =>
    have ha : a.length = 20 := h a (List.mem_cons_self _ _)
    have hrec := ih (fun x hx => h x (List.mem_cons_of_mem _ hx))
    have hbytes : ParsesTo (readBytes 20) a a := ha ▸ readBytes_parsesTo a
    have hcont : ParsesTo
        (fun s1 => (readAddresses addrs.length s1).bind fun r2 =>
          .ok (pyHex (beNat a) :: r2.1, r2.2))
        (addrs.flatten ++ []) (pyHex (beNat a) :: addrs.map fun x => pyHex (beNat x)) :=
      parsesTo_seq (fun rest s2 => .ok (pyHex (beNat a) :: rest, s2))
        hrec (parsesTo_pure _)
    have hcomp := parsesTo_seq
      (fun bs s1 => (readAddresses addrs.length s1).bind fun r2 =>
        .ok (pyHex (beNat bs) :: r2.1, r2.2))
      hbytes hcont
    rw [List.append_nil] at hcomp
    exact parsesTo_congr (fun s => rfl) hcomp

theorem readOrgs_parsesTo (orgs : List Nat) (h : ∀ o ∈ orgs, o < 4294967296) :
    ParsesTo (readOrgs orgs.length) (orgs.flatMap encodeU32) orgs := by
  induction orgs with
  | nil => exact parsesTo_pure []
  | cons o orgs ih =>
    have hrec := ih (fun x hx => h x (List.mem_cons_of_mem _ hx))
    have hbytes : ParsesTo (readBytes 4) (encodeU32 o) (encodeU32 o) :=
      readBytes_parsesTo (encodeU32 o)
    have hcont : ParsesTo
        (fun s1 => (readOrgs orgs.length s1).bind fun r2 =>
          .ok (beNat (encodeU32 o) :: r2.1, r2.2))
        (orgs.flatMap encodeU32 ++ []) (beNat (encodeU32 o) :: orgs) :=
      parsesTo_seq (fun rest s2 => .ok (beNat (encodeU32 o) :: rest, s2))
        hrec (parsesTo_pure _)
    have hcomp := parsesTo_seq
      (fun bs s1 => (readOrgs orgs.length s1).bind fun r2 => .ok (beNat bs :: r2.1, r2.2))
      hbytes hcont
    rw [List.append_nil, beNat_encodeU32 (h o (List.mem_cons_self _ _))] at hcomp
    simp only [List.flatMap_cons, List.length_cons]
    exact parsesTo_congr (fun s => rfl) hcomp

theorem readTrustEdges_parsesTo (addr : List String)
    (edges : List (Nat × Nat × Nat)) (tbl : Tbl)
    (hlen : addr.length < 4294967296)
    (h : ∀ e ∈ edges, e.1 < addr.length ∧ e.2.1 < addr.length) :
    ParsesTo (readTrustEdges addr edges.length tbl)
      (edges.flatMap fun e => encodeU32 e.1 ++ encodeU32 e.2.1 ++ [e.2.2])
      (edges.foldl
        (fun t e => tblSet t (addr.getD e.1 "") (addr.getD e.2.1 "") (Int.ofNat e.2.2))
        tbl) := by
  induction edges generalizing tbl with
  | nil => exact parsesTo_pure tbl
  | cons e edges ih =>
    obtain ⟨f, t, pct⟩ := e
    obtain ⟨hf, ht⟩ := h _ (List.mem_cons_self _ _)
    have haf : addr[beNat (encodeU32 f)]? = some (addr.getD f "") := by
      rw [beNat_encodeU32 (lt_trans hf hlen)]
      exact getElem?_eq_some_getD _ _ _ hf
    have hat : addr[beNat (encodeU32 t)]? = some (addr.getD t "") := by
      rw [beNat_encodeU32 (lt_trans ht hlen)]
      exact getElem?_eq_some_getD _ _ _ ht
    have hrec := ih (tblSet tbl (addr.getD f "") (addr.getD t "") (Int.ofNat pct))
      (fun x hx => h x (List.mem_cons_of_mem _ hx))
    have hmatch : ParsesTo
        (fun s3 =>
          match addr[beNat (encodeU32 f)]?, addr[beNat (encodeU32 t)]? with
          | some afrm, some adst =>
            readTrustEdges addr edges.length
              (tblSet tbl afrm adst (Int.ofNat (beNat [pct]))) s3
          | _, _ => .error .badIndex)
        (edges.flatMap fun x => encodeU32 x.1 ++ encodeU32 x.2.1 ++ [x.2.2])
        (edges.foldl
          (fun tb x => tblSet tb (addr.getD x.1 "") (addr.getD x.2.1 "") (Int.ofNat x.2.2))
          (tblSet tbl (addr.getD f "") (addr.getD t "") (Int.ofNat pct))) := by
      apply parsesTo_congr (q := fun s3 =>
          match addr[beNat (encodeU32 f)]?, addr[beNat (encodeU32 t)]? with
          | some afrm, some adst =>
            readTrustEdges addr edges.length
              (tblSet tbl afrm adst (Int.ofNat (beNat [pct]))) s3
          | _, _ => .error .badIndex)
        (fun s => by simp only [haf, hat, beNat_singleton]) hrec
    have hbp : ParsesTo (readBytes 1) [pct] [pct] := readBytes_parsesTo [pct]
    have hk2 := parsesTo_seq
      (fun bp s3 =>
        match addr[beNat (encodeU32 f)]?, addr[beNat (encodeU32 t)]? with
        | some afrm, some adst =>
          readTrustEdges addr edges.length
            (tblSet tbl afrm adst (Int.ofNat (beNat bp))) s3
        | _, _ => .error .badIndex)
      hbp hmatch
    have hbt : ParsesTo (readBytes 4) (encodeU32 t) (encodeU32 t) :=
      readBytes_parsesTo (encodeU32 t)
    have hk1 := parsesTo_seq
      (fun bt s2 => (readBytes 1 s2).bind fun r3 =>
        match addr[beNat (encodeU32 f)]?, addr[beNat bt]? with
        | some afrm, some adst =>
          readTrustEdges addr edges.length
            (tblSet tbl afrm adst (Int.ofNat (beNat r3.1))) r3.2
        | _, _ => .error .badIndex)
      hbt hk2
    have hbf : ParsesTo (readBytes 4) (encodeU32 f) (encodeU32 f) :=
      readBytes_parsesTo (encodeU32 f)
    have hk0 := parsesTo_seq
      (fun bf s1 => (readBytes 4 s1).bind fun r2 =>
        (readBytes 1 r2.2).bind fun r3 =>
        match addr[beNat bf]?, addr[beNat r2.1]? with
        | some afrm, some adst =>
          readTrustEdges addr edges.length
            (tblSet tbl afrm adst (Int.ofNat (beNat r3.1))) r3.2
        | _, _ => .error .badIndex)
      hbf hk1
    simp only [List.flatMap_cons, List.length_cons, List.foldl_cons, List.append_assoc]
    simp only [List.append_assoc] at hk0
    exact parsesTo_congr (fun s => rfl) hk0

theorem readBalances_parsesTo (addr : List String)
    (bals : List (Nat × Nat × List Nat)) (tbl : Tbl)
    (hlen : addr.length < 4294967296)
    (h : ∀ b ∈ bals, b.1 < addr.length ∧ b.2.1 < addr.length) :
    ParsesTo (readBalances addr bals.length tbl)
      (bals.flatMap fun b => encodeU32 b.1 ++ encodeU32 b.2.1 ++ [b.2.2.length] ++ b.2.2)
      (bals.foldl
        (fun tb b =>
          tblSet tb (addr.getD b.2.1 "") (addr.getD b.1 "") (Int.ofNat (leNat b.2.2)))
        tbl) := by
  induction bals generalizing tbl with
  | nil => exact parsesTo_pure tbl
  | cons b bals ih =>
    obtain ⟨t, f, payload⟩ := b
    obtain ⟨ht, hf⟩ := h _ (List.mem_cons_self _ _)
    have haf : addr[beNat (encodeU32 f)]? = some (addr.getD f "") := by
      rw [beNat_encodeU32 (lt_trans hf hlen)]
      exact getElem?_eq_some_getD _ _ _ hf
    have hat : addr[beNat (encodeU32 t)]? = some (addr.getD t "") := by
      rw [beNat_encodeU32 (lt_trans ht hlen)]
      exact getElem?_eq_some_getD _ _ _ ht
    have hrec := ih (tblSet tbl (addr.getD f "") (addr.getD t "") (Int.ofNat (leNat payload)))
      (fun x hx => h x (List.mem_cons_of_mem _ hx))
    have hmatch : ParsesTo
        (fun s4 =>
          match addr[beNat (encodeU32 f)]?, addr[beNat (encodeU32 t)]? with
          | some afrm, some adst =>
            readBalances addr bals.length
              (tblSet tbl afrm adst (Int.ofNat (leNat payload))) s4
          | _, _ => .error .badIndex)
        (bals.flatMap fun x => encodeU32 x.1 ++ encodeU32 x.2.1 ++ [x.2.2.length] ++ x.2.2)
        (bals.foldl
          (fun tb x =>
            tblSet tb (addr.getD x.2.1 "") (addr.getD x.1 "") (Int.ofNat (leNat x.2.2)))
          (tblSet tbl (addr.getD f "") (addr.getD t "") (Int.ofNat (leNat payload)))) := by
      exact parsesTo_congr (fun s => by simp only [haf, hat]) hrec
    have hpayload : ParsesTo (readBytes (beNat [payload.length])) payload payload := by
      rw [beNat_singleton]
      exact readBytes_parsesTo payload
    have hk3 := parsesTo_seq
      (fun pl s4 =>
        match addr[beNat (encodeU32 f)]?, addr[beNat (encodeU32 t)]? with
        | some afrm, some adst =>
          readBalances addr bals.length
            (tblSet tbl afrm adst (Int.ofNat (leNat pl))) s4
        | _, _ => .error .badIndex)
      hpayload hmatch
    have hbn : ParsesTo (readBytes 1) [payload.length] [payload.length] :=
      readBytes_parsesTo [payload.length]
    have hk2 := parsesTo_seq
      (fun bn s3 => (readBytes (beNat bn) s3).bind fun r4 =>
        match addr[beNat (encodeU32 f)]?, addr[beNat (encodeU32 t)]? with
        | some afrm, some adst =>
          readBalances addr bals.length
            (tblSet tbl afrm adst (Int.ofNat (leNat r4.1))) r4.2
        | _, _ => .error .badIndex)
      hbn hk3
    have hbf : ParsesTo (readBytes 4) (encodeU32 f) (encodeU32 f) :=
      readBytes_parsesTo (encodeU32 f)
    have hk1 := parsesTo_seq
      (fun bf s2 => (readBytes 1 s2).bind fun r3 =>
        (readBytes (beNat r3.1) r3.2).bind fun r4 =>
        match addr[beNat bf]?, addr[beNat (encodeU32 t)]? with
        | some afrm, some adst =>
          readBalances addr bals.length
            (tblSet tbl afrm adst (Int.ofNat (leNat r4.1))) r4.2
        | _, _ => .error .badIndex)
      hbf hk2
    have hbt : ParsesTo (readBytes 4) (encodeU32 t) (encodeU32 t) :=
      readBytes_parsesTo (encodeU32 t)
    have hk0 := parsesTo_seq
      (fun bt s1 => (readBytes 4 s1).bind fun r2 =>
        (readBytes 1 r2.2).bind fun r3 =>
        (readBytes (beNat r3.1) r3.2).bind fun r4 =>
        match addr[beNat r2.1]?, addr[beNat bt]? with
        | some afrm, some adst =>
          readBalances addr bals.length
            (tblSet tbl afrm adst (Int.ofNat (leNat r4.1))) r4.2
        | _, _ => .error .badIndex)
      hbt hk1
    simp only [List.flatMap_cons, List.length_cons, List.foldl_cons, List.append_assoc]
    simp only [List.append_assoc] at hk0
    exact parsesTo_congr (fun s => rfl) hk0

theorem decodesTo_congr {β : Type} {p q : List Nat → Except DecodeError β}
    {c : List Nat} {out : β} (h : ∀ s, p s = q s) (hp : DecodesTo p c out) :
    DecodesTo q c out :=
  ⟨fun rest => (h (c ++ rest)).symm.trans (hp.1 rest),
   fun k hk => (h (c.take k)).symm.trans (hp.2 k hk)⟩

/-- The decoder, applied to the reference encoding of a well-formed
snapshot: it consumes exactly the encoded bytes, producing the three
reference tables, and fails with `truncated` on every strict prefix. -/
theorem read_safes_bin_decodesTo (r : RawSnapshot) (h : snapWF r) :
    DecodesTo read_pathfinder2_safes_bin (encodeSnapshot r)
      ⟨snapTrustTbl r, snapUtiTbl r, r.orgs⟩ := by
  obtain ⟨h1, h2, h3, h4, h5, h6, h7, h8⟩ := h
  have haddrlen : (snapAddrs r).length = r.addrs.length := by simp [snapAddrs]
  -- balance section
  have hbalP : ParsesTo (readBalances (snapAddrs r) r.bals.length [])
      (r.bals.flatMap fun b => encodeU32 b.1 ++ encodeU32 b.2.1 ++ [b.2.2.length] ++ b.2.2)
      (snapUtiTbl r) := by
    apply readBalances_parsesTo (snapAddrs r) r.bals [] (by rw [haddrlen]; exact h1)
    intro b hb
    rw [haddrlen]
    exact ⟨(h8 b hb).1, (h8 b hb).2.1⟩
  have hD1 := decodesTo_seq
    (fun ub _s8 => (.ok ⟨snapTrustTbl r, ub, r.orgs⟩ : Except DecodeError Snapshot))
    hbalP (decodesTo_pure (⟨snapTrustTbl r, snapUtiTbl r, r.orgs⟩ : Snapshot))
  have hD2 := decodesTo_seq
    (fun c4 s7 => (readBalances (snapAddrs r) (beNat c4) [] s7).bind fun r8 =>
      (.ok ⟨snapTrustTbl r, r8.1, r.orgs⟩ : Except DecodeError Snapshot))
    (readBytes_parsesTo (encodeU32 r.bals.length))
    (decodesTo_congr (fun s => by simp only [beNat_encodeU32 h4]) hD1)
  -- trust section
  have htrustP : ParsesTo (readTrustEdges (snapAddrs r) r.trusts.length [])
      (r.trusts.flatMap fun e => encodeU32 e.1 ++ encodeU32 e.2.1 ++ [e.2.2])
      (snapTrustTbl r) := by
    apply readTrustEdges_parsesTo (snapAddrs r) r.trusts [] (by rw [haddrlen]; exact h1)
    intro e he
    rw [haddrlen]
    exact h7 e he
  have hD3 := decodesTo_seq
    (fun tt s6 => (readBytes 4 s6).bind fun r7 =>
      (readBalances (snapAddrs r) (beNat r7.1) [] r7.2).bind fun r8 =>
      (.ok ⟨tt, r8.1, r.orgs⟩ : Except DecodeError Snapshot))
    htrustP hD2
  have hD4 := decodesTo_seq
    (fun c3 s5 => (readTrustEdges (snapAddrs r) (beNat c3) [] s5).bind fun r6 =>
      (readBytes 4 r6.2).bind fun r7 =>
      (readBalances (snapAddrs r) (beNat r7.1) [] r7.2).bind fun r8 =>
      (.ok ⟨r6.1, r8.1, r.orgs⟩ : Except DecodeError Snapshot))
    (readBytes_parsesTo (encodeU32 r.trusts.length))
    (decodesTo_congr (fun s => by simp only [beNat_encodeU32 h3]) hD3)
  -- organization section
  have horgsP : ParsesTo (readOrgs r.orgs.length) (r.orgs.flatMap encodeU32) r.orgs :=
    readOrgs_parsesTo r.orgs h6
  have hD5 := decodesTo_seq
    (fun ogs s4 => (readBytes 4 s4).bind fun r5 =>
      (readTrustEdges (snapAddrs r) (beNat r5.1) [] r5.2).bind fun r6 =>
      (readBytes 4 r6.2).bind fun r7 =>
      (readBalances (snapAddrs r) (beNat r7.1) [] r7.2).bind fun r8 =>
      (.ok ⟨r6.1, r8.1, ogs⟩ : Except DecodeError Snapshot))
    horgsP hD4
  have hD6 := decodesTo_seq
    (fun c2 s3 => (readOrgs (beNat c2) s3).bind fun r4 =>
      (readBytes 4 r4.2).bind fun r5 =>
      (readTrustEdges (snapAddrs r) (beNat r5.1) [] r5.2).bind fun r6 =>
      (readBytes 4 r6.2).bind fun r7 =>
      (readBalances (snapAddrs r) (beNat r7.1) [] r7.2).bind fun r8 =>
      (.ok ⟨r6.1, r8.1, r4.1⟩ : Except DecodeError Snapshot))
    (readBytes_parsesTo (encodeU32 r.orgs.length))
    (decodesTo_congr (fun s => by simp only [beNat_encodeU32 h2]) hD5)
  -- address section
  have haddrP : ParsesTo (readAddresses r.addrs.length) r.addrs.flatten (snapAddrs r) :=
    readAddresses_parsesTo r.addrs h5
  have hD7 := decodesTo_seq
    (fun addr s2 => (readBytes 4 s2).bind fun r3 =>
      (readOrgs (beNat r3.1) r3.2).bind fun r4 =>
      (readBytes 4 r4.2).bind fun r5 =>
      (readTrustEdges addr (beNat r5.1) [] r5.2).bind fun r6 =>
      (readBytes 4 r6.2).bind fun r7 =>
      (readBalances addr (beNat r7.1) [] r7.2).bind fun r8 =>
      (.ok ⟨r6.1, r8.1, r4.1⟩ : Except DecodeError Snapshot))
    haddrP hD6
  have hD8 := decodesTo_seq
    (fun c1 s1 => (readAddresses (beNat c1) s1).bind fun r2 =>
      (readBytes 4 r2.2).bind fun r3 =>
      (readOrgs (beNat r3.1) r3.2).bind fun r4 =>
      (readBytes 4 r4.2).bind fun r5 =>
      (readTrustEdges r2.1 (beNat r5.1) [] r5.2).bind fun r6 =>
      (readBytes 4 r6.2).bind fun r7 =>
      (readBalances r2.1 (beNat r7.1) [] r7.2).bind fun r8 =>
      (.ok ⟨r6.1, r8.1, r4.1⟩ : Except DecodeError Snapshot))
    (readBytes_parsesTo (encodeU32 r.addrs.length))
    (decodesTo_congr (fun s => by simp only [beNat_encodeU32 h1]) hD7)
  have hfinal := decodesTo_congr (q := read_pathfinder2_safes_bin) (fun s => rfl) hD8
  have hbytes : encodeU32 r.addrs.length ++ (r.addrs.flatten ++
      (encodeU32 r.orgs.length ++ ((r.orgs.flatMap encodeU32) ++
      (encodeU32 r.trusts.length ++
        ((r.trusts.flatMap fun e => encodeU32 e.1 ++ encodeU32 e.2.1 ++ [e.2.2]) ++
      (encodeU32 r.bals.length ++
        ((r.bals.flatMap fun b => encodeU32 b.1 ++ encodeU32 b.2.1 ++ [b.2.2.length] ++ b.2.2)
          ++ []))))))) = encodeSnapshot r := by
    simp [encodeSnapshot, List.append_assoc]
  rwa [hbytes] at hfinal

/-- C9 (amended): the decoder fails with a truncation error on every
stream that is a strict prefix of a well-formed encoding (any read past
the end of the stream is a `struct.error`), and on a stream carrying a
full well-formed encoding whose record indices are all inside the
address table it returns the three tables — trust, utilized balances
and organization indices — ignoring any surplus trailing bytes.  (An
out-of-range address index instead fails with an `IndexError`, not a
`FormatError`; see the counterexample.) -/
theorem read_safes_bin_contract (r : RawSnapshot) (h : snapWF r) :
    (∀ extra, read_pathfinder2_safes_bin (encodeSnapshot r ++ extra) =
        .ok ⟨snapTrustTbl r, snapUtiTbl r, r.orgs⟩) ∧
      ∀ k, k < (encodeSnapshot r).length →
        read_pathfinder2_safes_bin ((encodeSnapshot r).take k) = .error .truncated :=
  read_safes_bin_decodesTo r h

/-- The C2 example snapshot as a reference `RawSnapshot`. -/
def exampleRawSnapshot : RawSnapshot :=
  ⟨[List.replicate 19 0 ++ [1], List.replicate 19 0 ++ [2]], [], [(0, 1, 50)], [(1, 0, [10])]⟩

/-- C9 witness: the contract instantiated at the example snapshot, with
one surplus byte appended for the success direction and a 10-byte
prefix for the truncation direction. -/
theorem read_safes_bin_contract_witness :
    read_pathfinder2_safes_bin (encodeSnapshot exampleRawSnapshot ++ [255]) =
        .ok ⟨snapTrustTbl exampleRawSnapshot, snapUtiTbl exampleRawSnapshot,
              exampleRawSnapshot.orgs⟩ ∧
      read_pathfinder2_safes_bin ((encodeSnapshot exampleRawSnapshot).take 10) =
        .error .truncated :=
  ⟨(read_safes_bin_contract exampleRawSnapshot (by unfold snapWF; decide)).1 [255],
   (read_safes_bin_contract exampleRawSnapshot (by unfold snapWF; decide)).2 10 (by decide)⟩

/-- A 25-byte stream that is *exactly* as long as its declared counts
demand — 0 addresses, 0 organizations, 1 trust edge (its full 9-byte
record present), 0 balances — and is therefore neither truncated nor
count-mismatched. -/
def badIndexBytes : List Nat :=
  [0, 0, 0, 0] ++ [0, 0, 0, 0] ++ [0, 0, 0, 1] ++
    ([0, 0, 0, 0] ++ [0, 0, 0, 0] ++ [7]) ++ [0, 0, 0, 0]

/-- C9 counterexample: on `badIndexBytes` the decoder does *not* return
the three tables: the trust record's address index 0 is outside the
empty address table, and the decoder fails with an `IndexError`
(`badIndex`), which is not the truncation/`FormatError` failure the
claim allows; appending surplus bytes does not help, so the failure is
not a truncation in disguise. -/
theorem decode_badIndex_counterexample :
    read_pathfinder2_safes_bin badIndexBytes = .error .badIndex ∧
      badIndexBytes.length = 25 ∧
      read_pathfinder2_safes_bin (badIndexBytes ++ List.replicate 40 255) =
        .error .badIndex ∧
      DecodeError.badIndex ≠ DecodeError.truncated := by decide

/-!
## Graph Builder (claim C8)

The module-level pass of lines 166–180: for every address in the union
of the two tables' key sets, and every counterparty in the union of that
address's rows, compute the capacity and register an edge when the
utilized balance is positive.  The pass writes
`tbl_trust[frm][to] = trust_percentage` — the very value it has just
read from the (current) trust table — and never assigns into
`tbl_uti`; both tables are threaded through the fold as explicit state
so that the frame property is about the function's actual data flow.
-/

/-- `tbl[k]` on the outer defaultdict: the row of `k`, empty when
absent. -/
def tblRow : Tbl → String → Row
  | [], _ => []
  | (k, r) :: t, a => if a = k then r else tblRow t a

/-- One graph edge: `(frm, to, weight=utilized, capacity)`. -/
abbrev BuildEdge := String × String × Int × Int

/-- State of the builder pass: the two mutable global tables and the
accumulated edge list. -/
abbrev BuildState := Tbl × Tbl × List BuildEdge

/-- The builder pass.  `all_addrs` is the union of outer keys; for each
`frm`, the counterparty list is the union of the keys of
`tbl_uti[frm]` and of the *current* `tbl_trust[frm]` (both rows are
snapshotted at entry to the inner loop, as Python's `set(...)` does);
the trust row is read and written live through the loop state. -/
def build_pass (tbl_trust tbl_uti : Tbl) (organizations : List String) : BuildState :=
  let all_addrs := (tbl_trust.map Prod.fst ++ tbl_uti.map Prod.fst).dedup
  all_addrs.foldl
    (fun st frm =>
      let uti := tblRow st.2.1 frm
      let all_ := (uti.map Prod.fst ++ (tblRow st.1 frm).map Prod.fst).dedup
      all_.foldl
        (fun st2 dst =>
          if frm = dst then st2
          else
            let utilized := rowGet uti dst
            let trust_percentage := tblGet st2.1 frm dst
            let capacity :=
              trust_transfer_limit st2.2.1 organizations frm dst trust_percentage
            let trust2 := tblSet st2.1 frm dst trust_percentage
            let edges2 :=
              if 0 < utilized then st2.2.2 ++ [(frm, dst, utilized, capacity)]
              else st2.2.2
            (trust2, st2.2.1, edges2))
        st)
    (tbl_trust, tbl_uti, [])

theorem foldl_invariant {α β : Type} (P : α → Prop) (f : α → β → α) (l : List β)
    (init : α) (h0 : P init) (hstep : ∀ s x, P s → P (f s x)) :
    P (l.foldl f init) := by
  induction l generalizing init with
  | nil => exact h0
  | cons x l ih => exact ih (f init x) (hstep init x h0)

/-- C8: the full graph-building pass (and with it every call to
`trust_transfer_limit`, which only reads) leaves both the trust table
and the utilized-balance table extensionally unchanged: every entry of
the resulting tables is the entry the input tables had.  The only store
the pass performs, `tbl_trust[frm][to] = trust_percentage`, writes back
the value just read from the same cell. -/
theorem build_pass_preserves_tables (tbl_trust tbl_uti : Tbl)
    (organizations : List String) (a b : String) :
    tblGet (build_pass tbl_trust tbl_uti organizations).1 a b = tblGet tbl_trust a b ∧
      (build_pass tbl_trust tbl_uti organizations).2.1 = tbl_uti := by
  have main : ∀ st : BuildState,
      st = build_pass tbl_trust tbl_uti organizations →
      (∀ x y, tblGet st.1 x y = tblGet tbl_trust x y) ∧ st.2.1 = tbl_uti := by
    intro st hst
    subst hst
    unfold build_pass
    apply foldl_invariant
      (fun st : BuildState =>
        (∀ x y, tblGet st.1 x y = tblGet tbl_trust x y) ∧ st.2.1 = tbl_uti)
    · exact ⟨fun x y => rfl, rfl⟩
    · intro s frm hs
      apply foldl_invariant
        (fun st : BuildState =>
          (∀ x y, tblGet st.1 x y = tblGet tbl_trust x y) ∧ st.2.1 = tbl_uti)
      · exact hs
      · intro s2 dst hs2
        by_cases hfd : frm = dst
        · simpa [hfd] using hs2
        · refine ⟨fun x y => ?_, ?_⟩
          · simp only [if_neg hfd]
            rw [tblGet_tblSet_self]
            exact hs2.1 x y
          · simpa [hfd] using hs2.2
  obtain ⟨h1, h2⟩ := main _ rfl
  exact ⟨h1 a b, h2⟩
